import Mathlib

/-!
Verification of `freertos_cpp_util`'s intrusive singly linked list
(`src/include/freertos_cpp_util/util/Intrusive_slist.hpp`) and of the
structural parts of the logger
(`src/include/freertos_cpp_util/logging/Logger.hpp`).

Shallow embedding: node addresses are natural numbers; the `m_next` field
of every `Intrusive_slist_node` is collected into one heap function
`Heap : Nat → Option Nat` (`none` models `nullptr`).  A list object holds
only its `m_head` pointer, exactly as the C++ class does.  Operations are
state-passing translations of the C++ member functions; `erase`'s `while`
loop becomes a fuel-indexed recursion (`none` = the fuel ran out, which
never happens on an acyclic chain with enough fuel).
-/

namespace FreertosCppUtil

/-- The `m_next` fields of all `Intrusive_slist_node`s: a map from node
address to the address the node's `m_next` points at (`none` = `nullptr`). -/
abbrev Heap := Nat → Option Nat

/-- Constructor `Intrusive_slist_node()` sets `m_next = nullptr`; a heap of freshly
constructed nodes maps every address to `none`. -/
def Heap.init : Heap := fun _ => none

/-- Declaration `class Intrusive_slist { Intrusive_slist_node* m_head; }` — the list
object stores only the head pointer. -/
structure Intrusive_slist where
  m_head : Option Nat
deriving DecidableEq, Repr

/-- Constructor `Intrusive_slist()` sets `m_head = nullptr`. -/
def Intrusive_slist.init : Intrusive_slist := ⟨none⟩

/-- Accessor `front<T>()` returns `static_cast<T*>(m_head)`; the cast does not change
the pointer value, so at value level `front` returns `m_head`. -/
def Intrusive_slist.front (s : Intrusive_slist) : Option Nat := s.m_head

/-- Accessor `empty()` returns `m_head == nullptr`. -/
def Intrusive_slist.empty (s : Intrusive_slist) : Bool := s.m_head.isNone

/-- Operation `push_front(node)`: `if (m_head) node->m_next = m_head; else
node->m_next = nullptr; m_head = node;`. -/
def Intrusive_slist.push_front (s : Intrusive_slist) (heap : Heap)
    (node : Nat) : Intrusive_slist × Heap :=
  match s.m_head with
  | some h => (⟨some node⟩, Function.update heap node (some h))
  | none => (⟨some node⟩, Function.update heap node none)

/-- Operation `pop_front()`: `if (m_head) m_head = m_head->m_next;`.  The C++
function returns `void`: the removed node is not returned, and its
`m_next` field is not touched. -/
def Intrusive_slist.pop_front (s : Intrusive_slist) (heap : Heap) :
    Intrusive_slist × Heap :=
  match s.m_head with
  | some h => (⟨heap h⟩, heap)
  | none => (s, heap)

/-- The `while (curr)` loop of `erase`, fuel-indexed.  Loop state: `prev`
and `curr` pointers.  On `curr == node`: `if (prev) prev->m_next =
curr->m_next; node->m_next = nullptr; return true;`.  On falling off the
end: `return false`.  Note the loop never assigns `m_head`. -/
def eraseLoop (heap : Heap) (node : Nat) (prev curr : Option Nat) :
    Nat → Option (Heap × Bool)
  | 0 => none
  | fuel + 1 =>
    match curr with
    | none => some (heap, false)
    | some c =>
      if c = node then
        let heap1 :=
          match prev with
          | some p => Function.update heap p (heap c)
          | none => heap
        some (Function.update heap1 node none, true)
      else
        eraseLoop heap node (some c) (heap c) fuel

/-- Operation `erase(node)`: runs the scan loop starting at `prev = nullptr`,
`curr = m_head`.  The member function never writes `m_head`, so the list
object is returned unchanged alongside the possibly updated heap and the
found/not-found return value. -/
def Intrusive_slist.erase (s : Intrusive_slist) (heap : Heap) (node : Nat)
    (fuel : Nat) : Option (Intrusive_slist × Heap × Bool) :=
  (eraseLoop heap node none s.m_head fuel).map fun hb => (s, hb.1, hb.2)

/-- Move constructor `Intrusive_slist(Intrusive_slist&& rhs)`:
`m_head = rhs.m_head; rhs.m_head = nullptr;`.  Returns (new list,
moved-from list) and passes the heap through untouched, since the
constructor assigns no `m_next` field. -/
def Intrusive_slist.moveConstruct (rhs : Intrusive_slist) (heap : Heap) :
    (Intrusive_slist × Intrusive_slist) × Heap :=
  ((⟨rhs.m_head⟩, ⟨none⟩), heap)

/-- Predicate `isChain heap l p`: starting at pointer `p`, following `m_next` visits
exactly the nodes of `l` in order and then reaches `nullptr`.  This is the
reachable chain of a list whose head is `p`; its existence for some finite
`l` is what "the chain is acyclic and finite" means. -/
def isChain (heap : Heap) : List Nat → Option Nat → Prop
  | [], p => p = none
  | x :: xs, p => p = some x ∧ isChain heap xs (heap x)

/-- Client operations on one intrusive list, for whole-run statements. -/
inductive Op where
  | push : Nat → Op
  | pop : Op
  | eraseOp : Nat → Op
deriving DecidableEq, Repr

/-- Abstract effect of `erase n` on the reachable chain, as the C++ code
actually behaves: if `n` is the head, the head is NOT unlinked — only
`n->m_next` is nulled, truncating the chain to `[n]`; otherwise the first
occurrence of `n` is spliced out (no effect when `n` is absent). -/
def absErase (l : List Nat) (n : Nat) : List Nat :=
  if l.head? = some n then [n] else l.erase n

/-- Predicate `ValidSeq l ops`: along the run whose current chain is `l`, every
pushed node is not currently in the chain (the caller obligation "must not
double-push"). -/
def ValidSeq : List Nat → List Op → Prop
  | _, [] => True
  | l, Op.push n :: ops => n ∉ l ∧ ValidSeq (n :: l) ops
  | l, Op.pop :: ops => ValidSeq l.tail ops
  | l, Op.eraseOp n :: ops => ValidSeq (absErase l n) ops

/-- Number of `push_front` calls in a sequence of operations. -/
def countPush : List Op → Nat
  | [] => 0
  | Op.push _ :: ops => countPush ops + 1
  | _ :: ops => countPush ops

/-- One client operation applied to a concrete (list, heap) state.  An
`erase` whose fuel runs out leaves the state unchanged (this branch is
unreachable whenever the fuel exceeds the chain length). -/
def stepOp (fuel : Nat) (st : Intrusive_slist × Heap) (op : Op) :
    Intrusive_slist × Heap :=
  match op with
  | Op.push n => st.1.push_front st.2 n
  | Op.pop => st.1.pop_front st.2
  | Op.eraseOp n =>
    match st.1.erase st.2 n fuel with
    | some shb => (shb.1, shb.2.1)
    | none => st

/-- Run a sequence of client operations with a fixed fuel for each
`erase`. -/
def runFrom (fuel : Nat) : List Op → Intrusive_slist × Heap →
    Intrusive_slist × Heap
  | [], st => st
  | op :: ops, st => runFrom fuel ops (stepOp fuel st op)

/-- Run a sequence of operations from a freshly constructed list over
freshly constructed nodes; `ops.length + 1` fuel is enough for every
`erase`, since the chain never grows longer than the number of pushes. -/
def run (ops : List Op) : Intrusive_slist × Heap :=
  runFrom (ops.length + 1) ops (Intrusive_slist.init, Heap.init)

end FreertosCppUtil

namespace FreertosCppUtil
namespace logging

/-- Modelled from the spec: `String_type`'s definition
(`Logger_types.hpp`'s `Stack_string`) is not under `src/`; the spec calls
a record "a fixed-capacity character buffer".  Its internals are irrelevant
to the claims checked here. -/
structure String_type where
  chars : List Char

/-- Modelled from the spec: `Object_pool<T, N>`'s definition is not under
`src/`; the spec says it "manages N preallocated objects", tracking free
slots in the free-list.  Only its capacity parameter matters here. -/
structure Object_pool (T : Type) (N : Nat) where
  free_slots : List (Fin N)

/-- The capacity template argument of an `Object_pool<T, N>`. -/
def Object_pool.capacity {T : Type} {N : Nat} (_ : Object_pool T N) : Nat := N

/-- Modelled from the spec: `Queue_static_pod<T, N>`'s definition is not
under `src/`; the spec says it is "a bounded FIFO of plain values" with
fixed capacity `N`.  Only its capacity parameter matters here. -/
structure Queue_static_pod (T : Type) (N : Nat) where
  items : List T

/-- The capacity template argument of a `Queue_static_pod<T, N>`. -/
def Queue_static_pod.capacity {T : Type} {N : Nat}
    (_ : Queue_static_pod T N) : Nat := N

/-- The `Logger` class members: `Object_pool<String_type, NUM_RECORDS>
m_log_pool; Queue_static_pod<String_type*, NUM_RECORDS> m_log_buffer;
Log_sink_base* m_sink;`.  `NUM_RECORDS` (defined outside `src/`) is a
parameter; a `String_type*` queue element and the sink pointer are node
addresses (`Option Nat`, `none` = `nullptr`). -/
structure Logger (NUM_RECORDS : Nat) where
  m_log_pool : Object_pool String_type NUM_RECORDS
  m_log_buffer : Queue_static_pod Nat NUM_RECORDS
  m_sink : Option Nat

/-- Constructor `Logger()` sets `m_sink = nullptr`; the pool and queue members are
default-constructed (pool fully free, queue empty, per the spec). -/
def Logger.init (N : Nat) : Logger N :=
  { m_log_pool := ⟨List.finRange N⟩
    m_log_buffer := ⟨[]⟩
    m_sink := none }

/-- Operation `set_sink(sink)`: `m_sink = sink;` — an unconditional assignment. -/
def Logger.set_sink {N : Nat} (l : Logger N) (sink : Option Nat) :
    Logger N :=
  { l with m_sink := sink }

end logging
end FreertosCppUtil

namespace FreertosCppUtil

/-- Concrete heap for tests: node `0`'s `m_next` points at node `1`; every
other node's `m_next` is `nullptr`.  So `0 → 1 → nullptr`. -/
def chain01 : Heap := Function.update Heap.init 0 (some 1)

/-- Concrete list object whose `m_head` points at node `0`. -/
def listAt0 : Intrusive_slist := ⟨some 0⟩

/-- Concrete operation sequence: push node 0, push node 1, erase node 1,
pop. -/
def opsExample : List Op := [Op.push 0, Op.push 1, Op.eraseOp 1, Op.pop]

theorem isChain_update_not_mem {heap : Heap} {l : List Nat} {p : Option Nat}
    {a : Nat} {v : Option Nat} (ha : a ∉ l) (h : isChain heap l p) :
    isChain (Function.update heap a v) l p := by
  induction l generalizing p with
  | nil => exact h
  | cons x xs ih =>
    obtain ⟨hp, hx⟩ := h
    refine ⟨hp, ?_⟩
    have hxa : x ≠ a := fun hxa => ha (hxa ▸ List.mem_cons_self x xs)
    rw [Function.update_noteq hxa]
    exact ih (fun hm => ha (List.mem_cons_of_mem x hm)) hx

theorem push_front_eq (s : Intrusive_slist) (heap : Heap) (n : Nat) :
    s.push_front heap n = (⟨some n⟩, Function.update heap n s.m_head) := by
  obtain ⟨hd⟩ := s
  cases hd <;> rfl

theorem eraseLoop_true_next_null :
    ∀ (fuel : Nat) (heap : Heap) (node : Nat) (prev curr : Option Nat)
      (heap' : Heap),
      eraseLoop heap node prev curr fuel = some (heap', true) →
      heap' node = none := by
  intro fuel
  induction fuel with
  | zero => intro heap node prev curr heap' h; exact absurd h (by simp [eraseLoop])
  | succ f ih =>
    intro heap node prev curr heap' h
    match curr with
    | none => simp [eraseLoop] at h
    | some c =>
      by_cases hc : c = node
      · simp only [eraseLoop, if_pos hc] at h
        injection h with h
        injection h with h1 h2
        subst h1
        simp
      · simp only [eraseLoop, if_neg hc] at h
        exact ih heap node (some c) (heap c) heap' h

theorem eraseLoop_not_mem :
    ∀ (l : List Nat) (fuel : Nat) (heap : Heap) (node : Nat)
      (prev curr : Option Nat),
      isChain heap l curr → node ∉ l → l.length < fuel →
      eraseLoop heap node prev curr fuel = some (heap, false) := by
  intro l
  induction l with
  | nil =>
    intro fuel heap node prev curr hch _ hlen
    cases fuel with
    | zero => simp at hlen
    | succ f =>
      have : curr = none := hch
      subst this
      rfl
  | cons x xs ih =>
    intro fuel heap node prev curr hch hmem hlen
    cases fuel with
    | zero => simp at hlen
    | succ f =>
      obtain ⟨hcurr, hch'⟩ := hch
      subst hcurr
      have hxnode : ¬(x = node) := fun h => hmem (h ▸ List.mem_cons_self x xs)
      simp only [eraseLoop, if_neg hxnode]
      exact ih f heap node (some x) (heap x) hch'
        (fun h => hmem (List.mem_cons_of_mem x h))
        (by simpa using Nat.lt_of_succ_lt_succ hlen)

end FreertosCppUtil

namespace FreertosCppUtil

theorem eraseLoop_found_step (heap : Heap) (node p f : Nat) :
    eraseLoop heap node (some p) (some node) (f + 1) =
      some (Function.update (Function.update heap p (heap node)) node none,
        true) := by
  simp [eraseLoop]

theorem eraseLoop_found_head (heap : Heap) (node f : Nat) :
    eraseLoop heap node none (some node) (f + 1) =
      some (Function.update heap node none, true) := by
  simp [eraseLoop]

theorem eraseLoop_advance (heap : Heap) (node c : Nat) (prev : Option Nat)
    (f : Nat) (hc : ¬c = node) :
    eraseLoop heap node prev (some c) (f + 1) =
      eraseLoop heap node (some c) (heap c) f := by
  simp [eraseLoop, hc]

theorem eraseLoop_found_inner :
    ∀ (l : List Nat) (fuel : Nat) (heap : Heap) (node p : Nat),
      isChain heap l (heap p) → node ∈ l → (p :: l).Nodup →
      l.length < fuel →
      ∃ heap', eraseLoop heap node (some p) (heap p) fuel =
          some (heap', true) ∧
        isChain heap' (l.erase node) (heap' p) ∧
        heap' node = none ∧
        ∀ m, m ∉ p :: l → heap' m = heap m := by
  intro l
  induction l with
  | nil =>
    intro fuel heap node p _ hmem _ _
    exact absurd hmem (List.not_mem_nil node)
  | cons c l' ih =>
    intro fuel heap node p hch hmem hnd hlen
    cases fuel with
    | zero => simp at hlen
    | succ f =>
      obtain ⟨hpc, hch'⟩ := hch
      obtain ⟨hpn, hnd'⟩ := List.nodup_cons.mp hnd
      by_cases hc : c = node
      · subst hc
        have hpne : p ≠ c := fun h => hpn (h ▸ List.mem_cons_self c l')
        have hcl' : c ∉ l' := (List.nodup_cons.mp hnd').1
        have hpl' : p ∉ l' := fun h => hpn (List.mem_cons_of_mem c h)
        refine ⟨Function.update (Function.update heap p (heap c)) c none,
          ?_, ?_, ?_, ?_⟩
        · rw [hpc, eraseLoop_found_step]
        · rw [List.erase_cons_head]
          have hp' : Function.update (Function.update heap p (heap c)) c
              none p = heap c := by
            rw [Function.update_noteq hpne, Function.update_same]
          rw [hp']
          exact isChain_update_not_mem hcl' (isChain_update_not_mem hpl' hch')
        · simp
        · intro m hm
          have hmp : m ≠ p := fun h => hm (h ▸ List.mem_cons_self p _)
          have hmc : m ≠ c := fun h => hm (by
            rw [h]; exact List.mem_cons_of_mem p (List.mem_cons_self c l'))
          rw [Function.update_noteq hmc, Function.update_noteq hmp]
      · have hmem' : node ∈ l' := by
          rcases List.mem_cons.mp hmem with h | h
          · exact absurd h.symm hc
          · exact h
        obtain ⟨heap', heq, hchain', hnodenull, hframe⟩ :=
          ih f heap node c hch' hmem' hnd'
            (by simpa using Nat.lt_of_succ_lt_succ hlen)
        refine ⟨heap', ?_, ?_, hnodenull, ?_⟩
        · rw [hpc, eraseLoop_advance heap node c (some p) f hc]
          exact heq
        · rw [List.erase_cons_tail (by simpa using hc)]
          exact ⟨(hframe p hpn).trans hpc, hchain'⟩
        · intro m hm
          exact hframe m (fun h => hm (List.mem_cons_of_mem p h))

end FreertosCppUtil

namespace FreertosCppUtil

theorem erase_spec (s : Intrusive_slist) (heap : Heap) (node fuel : Nat)
    (l : List Nat) (hch : isChain heap l s.m_head) (hnd : l.Nodup)
    (hlen : l.length < fuel) :
    ∃ heap' found, s.erase heap node fuel = some (s, heap', found) ∧
      isChain heap' (absErase l node) s.m_head ∧
      (absErase l node).Nodup ∧
      (absErase l node).length ≤ l.length ∧
      (found = true ↔ node ∈ l) ∧
      (found = false → heap' = heap) := by
  by_cases hmem : node ∈ l
  · cases l with
    | nil => exact absurd hmem (List.not_mem_nil node)
    | cons x xs =>
      obtain ⟨hhead, hch'⟩ := hch
      obtain ⟨hxxs, hndxs⟩ := List.nodup_cons.mp hnd
      cases fuel with
      | zero => simp at hlen
      | succ f =>
        by_cases hx : x = node
        · subst hx
          have habs : absErase (x :: xs) x = [x] := by simp [absErase]
          refine ⟨Function.update heap x none, true, ?_, ?_, ?_, ?_, ?_, ?_⟩
          · unfold Intrusive_slist.erase
            rw [hhead, eraseLoop_found_head]
            rfl
          · rw [habs, hhead]
            refine ⟨rfl, ?_⟩
            show Function.update heap x none x = none
            exact Function.update_same x none heap
          · rw [habs]; exact List.nodup_singleton x
          · rw [habs]; simp
          · exact ⟨fun _ => hmem, fun _ => rfl⟩
          · intro h; exact absurd h (by simp)
        · have hmem' : node ∈ xs := by
            rcases List.mem_cons.mp hmem with h | h
            · exact absurd h.symm hx
            · exact h
          have habs : absErase (x :: xs) node = x :: xs.erase node := by
            rw [absErase, List.head?_cons, if_neg (by simp [hx]),
              List.erase_cons_tail (by simpa using hx)]
          obtain ⟨heap', heq, hchain', hnodenull, hframe⟩ :=
            eraseLoop_found_inner xs f heap node x hch' hmem' hnd
              (by simpa using Nat.lt_of_succ_lt_succ hlen)
          refine ⟨heap', true, ?_, ?_, ?_, ?_, ?_, ?_⟩
          · unfold Intrusive_slist.erase
            rw [hhead, eraseLoop_advance heap node x none f hx, heq]
            rfl
          · rw [habs, hhead]
            exact ⟨rfl, hchain'⟩
          · rw [habs]
            refine List.nodup_cons.mpr ⟨?_, List.Nodup.erase node hndxs⟩
            exact fun h => hxxs (List.erase_subset node xs h)
          · rw [habs]
            have := (List.erase_sublist node xs).length_le
            simp only [List.length_cons]
            omega
          · exact ⟨fun _ => hmem, fun _ => rfl⟩
          · intro h; exact absurd h (by simp)
  · have habs : absErase l node = l := by
      rw [absErase, if_neg, List.erase_of_not_mem hmem]
      intro h
      exact hmem (List.mem_of_mem_head? (Option.mem_def.mpr h))
    refine ⟨heap, false, ?_, ?_, ?_, ?_, ?_, ?_⟩
    · unfold Intrusive_slist.erase
      rw [eraseLoop_not_mem l fuel heap node none s.m_head hch hmem hlen]
      rfl
    · rw [habs]; exact hch
    · rw [habs]; exact hnd
    · rw [habs]
    · simp [hmem]
    · intro _; rfl

end FreertosCppUtil

namespace FreertosCppUtil

theorem push_front_chain (s : Intrusive_slist) (heap : Heap) (n : Nat)
    (l : List Nat) (hch : isChain heap l s.m_head) (hn : n ∉ l) :
    isChain (s.push_front heap n).2 (n :: l)
      (s.push_front heap n).1.m_head := by
  rw [push_front_eq]
  show isChain (Function.update heap n s.m_head) (n :: l) (some n)
  refine ⟨rfl, ?_⟩
  show isChain (Function.update heap n s.m_head) l
    (Function.update heap n s.m_head n)
  rw [Function.update_same]
  exact isChain_update_not_mem hn hch

theorem pop_front_chain (s : Intrusive_slist) (heap : Heap) (l : List Nat)
    (hch : isChain heap l s.m_head) :
    isChain (s.pop_front heap).2 l.tail (s.pop_front heap).1.m_head ∧
    (s.pop_front heap).2 = heap := by
  obtain ⟨hd⟩ := s
  cases l with
  | nil =>
    have h0 : hd = none := hch
    subst h0
    exact ⟨rfl, rfl⟩
  | cons x xs =>
    obtain ⟨hhead, hch'⟩ := hch
    have h0 : hd = some x := hhead
    subst h0
    exact ⟨hch', rfl⟩

theorem countPush_le_length (ops : List Op) : countPush ops ≤ ops.length := by
  induction ops with
  | nil => exact Nat.le_refl 0
  | cons op ops ih =>
    cases op with
    | push n => simp only [countPush, List.length_cons]; omega
    | pop => simp only [countPush, List.length_cons]; omega
    | eraseOp n => simp only [countPush, List.length_cons]; omega

theorem runFrom_invariant :
    ∀ (ops : List Op) (fuel : Nat) (s : Intrusive_slist) (heap : Heap)
      (l : List Nat),
      isChain heap l s.m_head → l.Nodup → ValidSeq l ops →
      l.length + countPush ops < fuel →
      ∃ l', isChain (runFrom fuel ops (s, heap)).2 l'
          (runFrom fuel ops (s, heap)).1.m_head ∧
        l'.Nodup ∧ l'.length ≤ l.length + countPush ops := by
  intro ops
  induction ops with
  | nil =>
    intro fuel s heap l hch hnd _ _
    exact ⟨l, hch, hnd, Nat.le_refl _⟩
  | cons op ops ih =>
    intro fuel s heap l hch hnd hv hlen
    cases op with
    | push n =>
      obtain ⟨hn, hv'⟩ := hv
      have hch' := push_front_chain s heap n l hch hn
      have hnd' : (n :: l).Nodup := List.nodup_cons.mpr ⟨hn, hnd⟩
      have hlen' : (n :: l).length + countPush ops < fuel := by
        simp only [List.length_cons, countPush] at hlen ⊢
        omega
      obtain ⟨l', h1, h2, h3⟩ := ih fuel (s.push_front heap n).1
        (s.push_front heap n).2 (n :: l) hch' hnd' hv' hlen'
      refine ⟨l', ?_, h2, ?_⟩
      · exact h1
      · simp only [List.length_cons, countPush] at h3 ⊢
        omega
    | pop =>
      have hv' : ValidSeq l.tail ops := hv
      obtain ⟨hch', -⟩ := pop_front_chain s heap l hch
      have hnd' : l.tail.Nodup := List.Nodup.sublist (List.tail_sublist l) hnd
      have htl : l.tail.length ≤ l.length :=
        (List.tail_sublist l).length_le
      have hlen' : l.tail.length + countPush ops < fuel := by
        simp only [countPush] at hlen
        omega
      obtain ⟨l', h1, h2, h3⟩ := ih fuel (s.pop_front heap).1
        (s.pop_front heap).2 l.tail hch' hnd' hv' hlen'
      refine ⟨l', ?_, h2, ?_⟩
      · exact h1
      · simp only [countPush]
        omega
    | eraseOp n =>
      have hv' : ValidSeq (absErase l n) ops := hv
      obtain ⟨heap', found, heq, hch', hnd', hlen'', -, -⟩ :=
        erase_spec s heap n fuel l hch hnd
          (by simp only [countPush] at hlen; omega)
      have hstep : stepOp fuel (s, heap) (Op.eraseOp n) = (s, heap') := by
        simp only [stepOp, heq]
      have hlen3 : (absErase l n).length + countPush ops < fuel := by
        simp only [countPush] at hlen
        omega
      obtain ⟨l', h1, h2, h3⟩ := ih fuel s heap' (absErase l n) hch' hnd'
        hv' hlen3
      refine ⟨l', ?_, h2, ?_⟩
      · show isChain
          (runFrom fuel ops (stepOp fuel (s, heap) (Op.eraseOp n))).2 l'
          (runFrom fuel ops (stepOp fuel (s, heap) (Op.eraseOp n))).1.m_head
        rw [hstep]
        exact h1
      · simp only [countPush]
        omega

end FreertosCppUtil

namespace FreertosCppUtil

/-- C1: the claim states that `erase(node)` unthreads `node` from the list
wherever it sits, including when `node` is the current head.  The code
violates this: on the concrete list `0 → 1 → nullptr` (head node `0`),
`erase(0)` returns `true` yet never assigns `m_head`, so the list object
still has `m_head = node 0` and — since `erase` nulled node `0`'s `m_next`
— the reachable chain afterwards is exactly `[0]`: node `0` is still
threaded as the front and node `1` has been cut off the list entirely. -/
theorem erase_head_returns_true_but_leaves_node_at_front :
    Intrusive_slist.erase listAt0 chain01 0 3 =
      some (listAt0, Function.update chain01 0 none, true) ∧
    listAt0.m_head = some 0 ∧
    isChain (Function.update chain01 0 none) [0] listAt0.m_head := by
  refine ⟨rfl, rfl, rfl, ?_⟩
  show Function.update chain01 0 none 0 = none
  simp

/-- C2 counterexample: the claim states that every node detached by a
detaching operation has a null `next` afterwards.  `pop_front` violates
it: on the list `0 → 1 → nullptr`, popping detaches head node `0`, yet
node `0`'s `m_next` still holds `some 1` (the code advances `m_head`
without clearing the removed node's link). -/
theorem pop_front_detached_next_not_null :
    (Intrusive_slist.pop_front listAt0 chain01).1.m_head = some 1 ∧
    (Intrusive_slist.pop_front listAt0 chain01).2 0 = some 1 ∧
    (Intrusive_slist.pop_front listAt0 chain01).2 0 ≠ none :=
  ⟨rfl, rfl, Option.some_ne_none 1⟩

/-- C2 (amended): a node detached by `erase` (i.e. when `erase` returns
`true`) has a null `next` afterwards; `pop_front` never modifies any
node's `next` field (so the removed head keeps its old link), and move
construction never modifies any node's `next` field either. -/
theorem erase_detached_node_next_null (s : Intrusive_slist) (heap : Heap)
    (node fuel : Nat) (s' : Intrusive_slist) (heap' : Heap)
    (h : s.erase heap node fuel = some (s', heap', true)) :
    heap' node = none ∧
    (∀ (t : Intrusive_slist) (th : Heap), (t.pop_front th).2 = th) ∧
    (∀ (t : Intrusive_slist) (th : Heap), (t.moveConstruct th).2 = th) := by
  refine ⟨?_, ?_, ?_⟩
  · unfold Intrusive_slist.erase at h
    cases heq : eraseLoop heap node none s.m_head fuel with
    | none => rw [heq] at h; simp at h
    | some hb =>
      rw [heq] at h
      simp only [Option.map_some'] at h
      injection h with hpair
      have hb1 : hb.1 = heap' := congrArg (fun q => q.2.1) hpair
      have hb2 : hb.2 = true := congrArg (fun q => q.2.2) hpair
      have heq2 : eraseLoop heap node none s.m_head fuel =
          some (heap', true) := by
        rw [heq, ← hb1, ← hb2]
      exact eraseLoop_true_next_null fuel heap node none s.m_head heap' heq2
  · intro t th
    obtain ⟨hd⟩ := t
    cases hd <;> rfl
  · intro t th
    rfl

/-- Witness for the amended C2 theorem: erasing node `1` from the concrete
list `0 → 1 → nullptr` succeeds and the detached node `1`'s `next` is
null afterwards. -/
theorem erase_detached_node_next_null_witness :
    Function.update (Function.update chain01 0 none) 1 none 1 = none :=
  (erase_detached_node_next_null listAt0 chain01 1 3 listAt0
    (Function.update (Function.update chain01 0 none) 1 none) rfl).1

/-- C3: `pop_front()` does nothing on an empty list, and on a non-empty
list advances `m_head` to the current head's next node, leaving every
node's `m_next` untouched.  Its C++ return type is `void`: in this model
it returns only the new (list, heap) state, never the removed node. -/
theorem pop_front_spec (s : Intrusive_slist) (heap : Heap) :
    (s.m_head = none → s.pop_front heap = (s, heap)) ∧
    (∀ n, s.m_head = some n → s.pop_front heap = (⟨heap n⟩, heap)) := by
  obtain ⟨hd⟩ := s
  constructor
  · intro h
    have h0 : hd = none := h
    subst h0
    rfl
  · intro n h
    have h0 : hd = some n := h
    subst h0
    rfl

/-- Witness for C3 at concrete inputs: popping the empty list is a no-op,
and popping the list `0 → 1 → nullptr` advances the head to node `1`. -/
theorem pop_front_spec_witness :
    Intrusive_slist.pop_front Intrusive_slist.init Heap.init =
      (Intrusive_slist.init, Heap.init) ∧
    Intrusive_slist.pop_front listAt0 chain01 = (⟨chain01 0⟩, chain01) :=
  ⟨(pop_front_spec Intrusive_slist.init Heap.init).1 rfl,
   (pop_front_spec listAt0 chain01).2 0 rfl⟩

/-- C4: `push_front(node)` makes `node` the new head — afterwards
`front()` returns `node`, `empty()` is `false`, `node`'s `next` holds the
previous head (null when the list was empty), and no other node's `next`
changes.  (The code indeed never inspects prior membership, so this holds
for every `node`, in particular for one not currently in the list.) -/
theorem push_front_spec (s : Intrusive_slist) (heap : Heap) (n : Nat) :
    (s.push_front heap n).1.front = some n ∧
    (s.push_front heap n).1.empty = false ∧
    (s.push_front heap n).2 n = s.m_head ∧
    ∀ m, m ≠ n → (s.push_front heap n).2 m = heap m := by
  rw [push_front_eq]
  refine ⟨rfl, rfl, Function.update_same n s.m_head heap, ?_⟩
  intro m hm
  exact Function.update_noteq hm s.m_head heap

/-- Witness for C4 at concrete inputs: pushing node `5` onto the list
`0 → 1 → nullptr` makes `5` the front and leaves node `7`'s link
unchanged. -/
theorem push_front_spec_witness :
    (Intrusive_slist.push_front listAt0 chain01 5).1.front = some 5 ∧
    (Intrusive_slist.push_front listAt0 chain01 5).2 7 = chain01 7 :=
  ⟨(push_front_spec listAt0 chain01 5).1,
   (push_front_spec listAt0 chain01 5).2.2.2 7 (by decide)⟩

/-- C5: starting from the empty list over freshly constructed nodes, after
any sequence of `push_front` (of nodes not currently in the list),
`pop_front` and `erase` operations, the chain reachable from the head is a
finite, duplicate-free list of nodes — in particular acyclic — whose
length is bounded by the number of push operations performed. -/
theorem run_chain_acyclic_bounded (ops : List Op)
    (hv : ValidSeq [] ops) :
    ∃ l, isChain (run ops).2 l (run ops).1.m_head ∧ l.Nodup ∧
      l.length ≤ countPush ops := by
  have hfuel : List.length ([] : List Nat) + countPush ops <
      ops.length + 1 := by
    have := countPush_le_length ops
    simp only [List.length_nil]
    omega
  obtain ⟨l', h1, h2, h3⟩ := runFrom_invariant ops (ops.length + 1)
    Intrusive_slist.init Heap.init [] rfl List.nodup_nil hv hfuel
  exact ⟨l', h1, h2, by simpa using h3⟩

/-- Witness for C5 on the concrete sequence push 0, push 1, erase 1,
pop. -/
theorem run_chain_acyclic_bounded_witness :
    ∃ l, isChain (run opsExample).2 l (run opsExample).1.m_head ∧
      l.Nodup ∧ l.length ≤ countPush opsExample :=
  run_chain_acyclic_bounded opsExample
    (by simp [opsExample, ValidSeq, absErase])

/-- C6: move construction transfers the head reference to the new list,
leaves the moved-from list with a null head, and touches no node's
`m_next` field. -/
theorem moveConstruct_spec (rhs : Intrusive_slist) (heap : Heap) :
    (rhs.moveConstruct heap).1.1.m_head = rhs.m_head ∧
    (rhs.moveConstruct heap).1.2.m_head = none ∧
    (rhs.moveConstruct heap).2 = heap :=
  ⟨rfl, rfl, rfl⟩

/-- C8: on an empty list `front<T>()` returns the null pointer (it is just
`static_cast<T*>(m_head)`, and `m_head` is null); no failure path
exists. -/
theorem front_of_empty_is_null (s : Intrusive_slist)
    (h : s.empty = true) : s.front = none := by
  unfold Intrusive_slist.empty at h
  unfold Intrusive_slist.front
  exact Option.isNone_iff_eq_none.mp h

/-- Witness for C8: the freshly constructed list is empty and its `front`
is null. -/
theorem front_of_empty_is_null_witness :
    Intrusive_slist.init.empty = true ∧
    Intrusive_slist.init.front = none :=
  ⟨rfl, front_of_empty_is_null Intrusive_slist.init rfl⟩

/-- C9: `push_front(n)` immediately followed by `pop_front()` restores the
original head pointer and hence the original `empty()` status (this holds
for every `n`, in particular for `n` not in the list as the claim
assumes). -/
theorem push_then_pop_restores_head (s : Intrusive_slist) (heap : Heap)
    (n : Nat) :
    ((s.push_front heap n).1.pop_front (s.push_front heap n).2).1.m_head =
      s.m_head ∧
    ((s.push_front heap n).1.pop_front (s.push_front heap n).2).1.empty =
      s.empty := by
  rw [push_front_eq]
  constructor
  · show Function.update heap n s.m_head n = s.m_head
    exact Function.update_same n s.m_head heap
  · show (Function.update heap n s.m_head n).isNone = s.m_head.isNone
    rw [Function.update_same]

/-- C7: a `Logger` owns exactly one object pool and one value queue, both
instantiated with the same capacity argument `NUM_RECORDS`, plus a sink
pointer that can be null. -/
theorem logger_capacities_equal (N : Nat) (lg : logging.Logger N) :
    lg.m_log_pool.capacity = N ∧
    lg.m_log_buffer.capacity = N ∧
    lg.m_log_pool.capacity = lg.m_log_buffer.capacity ∧
    ∃ lg0 : logging.Logger N, lg0.m_sink = none :=
  ⟨rfl, rfl, rfl, ⟨logging.Logger.init N, rfl⟩⟩

/-- C10: a freshly constructed `Logger` has a null sink, and `set_sink`
unconditionally replaces the stored sink with its argument, leaving the
pool and queue members untouched. -/
theorem logger_init_and_set_sink (N : Nat) (lg : logging.Logger N)
    (sink : Option Nat) :
    (logging.Logger.init N).m_sink = none ∧
    (lg.set_sink sink).m_sink = sink ∧
    (lg.set_sink sink).m_log_pool = lg.m_log_pool ∧
    (lg.set_sink sink).m_log_buffer = lg.m_log_buffer :=
  ⟨rfl, rfl, rfl, rfl⟩

end FreertosCppUtil
